import Mathlib

/-!
A shallow embedding of the word-selection engine in
`src/wonderwords/random_word.py`, together with theorems settling the
specification claims about it.

Conventions of the embedding:
* Python strings are Lean `String`; `word[::-1]` is `strRev`.
* Python `int` is Lean `Int` where values may be negative (length bounds);
  counts are `Nat`.
* Python `set` values are Lean lists kept duplicate-free; `set.update`,
  `&` and `-=` are `setUpdate`, `setInter`, `setDiff` (membership
  semantics, order chosen deterministically).
* Raising an exception is `Except.error`; each `raise` site maps to a
  `WWError` constructor carrying exactly the data interpolated into the
  Python message (`ValueError` for length bounds carries nothing,
  `ValueError` for an unknown category carries the category name,
  `NoWordsToChoseFrom` carries the requested amount and nothing else).
* `re.fullmatch(pattern, word)` is modelled by an abstract total match
  predicate `String → Bool` supplied by the caller, since the regex
  engine is Python standard library, not repository code.
* `random.choice` and `random.shuffle` (standard library) are driven by
  an abstract stream `picks : Nat → Nat` of random draws: `choice` on a
  pool of size n consumes one draw reduced mod n, `shuffle` returns the
  permutation of the pool selected by the stream.
* The `_trie` module is repository code that is not part of the given
  sources; its behaviour is modelled from the spec (see
  `get_words_that_start_with`).
-/

/-- `word[::-1]`: string reversal. -/
def strRev (s : String) : String := ⟨s.data.reverse⟩

/-- The exceptions raised by `random_word.py`, each constructor carrying
exactly the data interpolated into the corresponding Python message. -/
inductive WWError where
  | invalidLength
  | unknownCategory (name : String)
  | noWords (amount : Nat)
deriving DecidableEq

/-- Drop a negative bound, as the two trailing normalisation steps of
`RandomWord._validate_lengths` do. -/
def dropNeg (b : Option Int) : Option Int :=
  match b with
  | none => none
  | some v => if v < 0 then none else some v

/-- `RandomWord._validate_lengths` (random_word.py:434-454): raise when both
bounds are given, min > max and max is not 0; then normalise negative bounds
to `None`.  The `isinstance` type checks are enforced by the Lean types. -/
def validate_lengths (word_min_length word_max_length : Option Int) :
    Except WWError (Option Int × Option Int) :=
  let bad : Bool :=
    match word_min_length, word_max_length with
    | some m, some M => decide (m > M) && decide (M ≠ 0)
    | _, _ => false
  if bad then .error .invalidLength
  else .ok (dropNeg word_min_length, dropNeg word_max_length)

/-- The loop body of `RandomWord._bisect_by_length` (random_word.py:496-511).
The loop is driven by explicit fuel; `bisect_by_length` supplies fuel equal to
the length of the list, which `bisectGo_spec` shows is enough for the loop to
reach its exit condition, so the fuel-exhausted branch (which returns the
current `left`, exactly as the loop exit does) is never taken. -/
def bisectGo (words : List String) (target : Int) : Nat → Nat → Int → Nat
  | 0, left, _ => left
  | fuel + 1, left, right =>
    if (left : Int) ≤ right then
      if ((words.getD (left + ((right - (left : Int)).toNat / 2)) "").length : Int) < target then
        bisectGo words target fuel (left + ((right - (left : Int)).toNat / 2) + 1) right
      else
        bisectGo words target fuel left ((left : Int) + ((right - (left : Int)).toNat / 2) - 1)
    else
      left

/-- `RandomWord._bisect_by_length`: binary search for the first index whose
word has length at least `target`, starting from `left = 0`,
`right = len(words) - 1`. -/
def bisect_by_length (words : List String) (target : Int) : Nat :=
  bisectGo words target words.length 0 ((words.length : Int) - 1)

/-- `RandomWord._get_words_of_length` (random_word.py:474-494): the Python
slice `word_list[left_index:right_index]` with `right_index = None` when no
maximum is given. -/
def get_words_of_length (word_list : List String) (min_length max_length : Option Int) :
    List String :=
  let left_index : Nat :=
    match min_length with
    | none => 0
    | some m => bisect_by_length word_list m
  match max_length with
  | none => word_list.drop left_index
  | some M => (word_list.take (bisect_by_length word_list (M + 1))).drop left_index

/-- The length predicate that `_get_words_of_length` is supposed to realise:
the word's length lies within the (possibly absent) bounds. -/
def inBounds (min_length max_length : Option Int) (w : String) : Bool :=
  (match min_length with
   | none => true
   | some m => decide (m ≤ (w.length : Int))) &&
  (match max_length with
   | none => true
   | some M => decide ((w.length : Int) ≤ M))

/-- Python dict access `self._categories[category]` over the association list
of categories (first binding wins, as dict keys are unique). -/
def lookupCat (cats : List (String × List String)) (name : String) : Option (List String) :=
  match cats.find? (fun p => p.1 == name) with
  | some p => some p.2
  | none => none

/-- Python `set.update`: add each element of `xs` not already present. -/
def setUpdate (acc xs : List String) : List String :=
  xs.foldl (fun a w => if w ∈ a then a else a ++ [w]) acc

/-- Python set intersection `a & b`, keeping the (arbitrary in Python,
left-to-right here) order of `a`. -/
def setInter (a b : List String) : List String :=
  a.filter (fun x => decide (x ∈ b))

/-- Python set difference `a -= b`. -/
def setDiff (a b : List String) : List String :=
  a.filter (fun x => decide (x ∉ b))

/-- Modelled from the spec: the `_trie` module is not among the given
sources.  Per spec 4.1, `wordsWithPrefix(prefix)` on a trie returns exactly
the set of previously inserted words for which `prefix` is a prefix; the
trie's contents are carried as the list of inserted words. -/
def get_words_that_start_with (inserted : List String) (p : String) : List String :=
  inserted.filter (fun w => List.isPrefixOf p.data w.data)

/-- The `long_operations` dict of `RandomWord.filter` (random_word.py:256-266):
which expensive predicates were requested. -/
structure LongOps where
  rx : Option (String → Bool)
  spaces : Bool
  sw : Option String
  ew : Option String

/-- `if long_operations:` — the dict is non-empty. -/
def opsPresent (ops : LongOps) : Bool :=
  ops.rx.isSome || ops.spaces || ops.sw.isSome || ops.ew.isSome

/-- A word fails at least one requested long operation (the body of the loop
in `RandomWord._perform_long_operations`, random_word.py:513-528). -/
def failsOps (ops : LongOps) (w : String) : Bool :=
  (match ops.rx with
   | some p => !(p w)
   | none => false) ||
  (ops.spaces && w.data.contains ' ') ||
  (match ops.sw with
   | some s => !(List.isPrefixOf s.data w.data)
   | none => false) ||
  (match ops.ew with
   | some s => !(List.isSuffixOf s.data w.data)
   | none => false)

/-- `RandomWord._perform_long_operations`: the set of words to remove. -/
def perform_long_operations (words : List String) (ops : LongOps) : List String :=
  words.filter (fun w => failsOps ops w)

/-- Building the `long_operations` dict in `RandomWord.filter`
(random_word.py:256-266): `starts_with`/`ends_with` are only deferred to the
linear pass when the tries are disabled, and only when non-empty. -/
def mkLongOps (hasTries : Bool) (starts_with ends_with : String)
    (rx : Option (String → Bool)) (exclude_with_spaces : Bool) : LongOps :=
  ⟨rx, exclude_with_spaces,
    (if hasTries then none else if starts_with == "" then none else some starts_with),
    (if hasTries then none else if ends_with == "" then none else some ends_with)⟩

/-- `if long_operations: words -= self._perform_long_operations(...)`. -/
def applyLongOps (ops : LongOps) (words : List String) : List String :=
  if opsPresent ops then setDiff words (perform_long_operations words ops) else words

/-- The trie intersections of `RandomWord.filter` (random_word.py:227-248):
when tries are present, intersect with the prefix-trie lookup for a non-empty
`starts_with`, then with the reversed lookup in the suffix trie for a
non-empty `ends_with` (reversing the query and the results). -/
def applyTries (tries : Option (List String × List String)) (starts_with ends_with : String)
    (words : List String) : List String :=
  match tries with
  | none => words
  | some (t0, t1) =>
    let w1 := if starts_with == "" then words
              else setInter words (get_words_that_start_with t0 starts_with)
    if ends_with == "" then w1
    else setInter w1 ((get_words_that_start_with t1 (strRev ends_with)).map strRev)

/-- The fallback of `RandomWord.filter` (random_word.py:204-208) when
`include_categories` is falsy: use `include_parts_of_speech` when that is
truthy, else all configured category names. -/
def fallbackCategories (parts_of_speech : Option (List String)) (keys : List String) :
    List String :=
  match parts_of_speech with
  | some l => if l.isEmpty then keys else l
  | none => keys

/-- Resolution of the category names to query (`RandomWord.filter`,
random_word.py:204-208), Python truthiness: `None` and `[]` both fall back. -/
def resolveCategories (include_categories include_parts_of_speech : Option (List String))
    (keys : List String) : List String :=
  match include_categories with
  | some l => if l.isEmpty then fallbackCategories include_parts_of_speech keys else l
  | none => fallbackCategories include_parts_of_speech keys

/-- The category loop of `RandomWord.filter` (random_word.py:214-225): look
each requested name up (raising on the first unknown one) and union the
length-bounded slices into the growing candidate set. -/
def gatherWords (cats : List (String × List String)) (mn mx : Option Int) :
    List String → List String → Except WWError (List String)
  | [], acc => .ok acc
  | n :: ns, acc =>
    match lookupCat cats n with
    | none => .error (.unknownCategory n)
    | some ws => gatherWords cats mn mx ns (setUpdate acc (get_words_of_length ws mn mx))

/-- The state of a `RandomWord` instance: the category map, and the pair of
tries (carried as their contents: all words, and all words reversed) when
`enhanced_prefixes` was set. -/
structure RandomWordEngine where
  categories : List (String × List String)
  tries : Option (List String × List String)

/-- Every word of every category, in category order — the words inserted
into both tries by `RandomWord.__init__` (random_word.py:138-142). -/
def allCategoryWords (cats : List (String × List String)) : List String :=
  (cats.map Prod.snd).flatten

/-- Sorting key `len`: compare words by length. -/
def lenLE (a b : String) : Prop := a.length ≤ b.length

instance : DecidableRel lenLE := fun a b => Nat.decLe a.length b.length

instance : IsTrans String lenLE := ⟨fun _ _ _ h1 h2 => Nat.le_trans h1 h2⟩

instance : IsTotal String lenLE := ⟨fun a b => Nat.le_total a.length b.length⟩

/-- `RandomWord._custom_categories` (random_word.py:456-472): each category
list is sorted by length.  Python's `list.sort(key=len)` is a stable sort by
length, whose output is uniquely determined; `List.insertionSort` with the
same key is also stable, hence computes the same list. -/
def custom_categories (cats : List (String × List String)) : List (String × List String) :=
  cats.map (fun p => (p.1, List.insertionSort lenLE p.2))

/-- `RandomWord.__init__` (random_word.py:115-147): sort the categories, and
when `enhanced_prefixes` build the two tries, one over the words and one over
the reversed words. -/
def mkEngine (enhanced : Bool) (cats : List (String × List String)) : RandomWordEngine :=
  let sorted := custom_categories cats
  ⟨sorted,
    if enhanced then some (allCategoryWords sorted, (allCategoryWords sorted).map strRev)
    else none⟩

/-- `RandomWord.filter` (random_word.py:149-271). -/
def filterModel (eng : RandomWordEngine) (starts_with ends_with : String)
    (include_categories include_parts_of_speech : Option (List String))
    (word_min_length word_max_length : Option Int)
    (rx : Option (String → Bool)) (exclude_with_spaces : Bool) :
    Except WWError (List String) := do
  let (mn, mx) ← validate_lengths word_min_length word_max_length
  let names := resolveCategories include_categories include_parts_of_speech
    (eng.categories.map Prod.fst)
  let words0 ← gatherWords eng.categories mn mx names []
  return applyLongOps (mkLongOps eng.tries.isSome starts_with ends_with rx exclude_with_spaces)
    (applyTries eng.tries starts_with ends_with words0)

/-- The sampling loop of `RandomWord.random_words` (random_word.py:358-364):
`amount` times, `random.choice` a word (one random draw, reduced mod the pool
size), remove it from the pool, append it to the output. -/
def sampleLoop (picks : Nat → Nat) : Nat → Nat → List String → List String
  | _, 0, _ => []
  | step, n + 1, pool =>
    let w := pool.getD (picks step % pool.length) ""
    w :: sampleLoop picks (step + 1) n (pool.erase w)

/-- `random.shuffle` (standard library): the permutation of the pool selected
by the random stream, realised by drawing without replacement until the pool
is exhausted. -/
def shuffleModel (picks : Nat → Nat) (pool : List String) : List String :=
  sampleLoop picks 0 pool.length pool

/-- `RandomWord.random_words` (random_word.py:273-364). -/
def random_words (eng : RandomWordEngine) (picks : Nat → Nat) (amount : Nat)
    (starts_with ends_with : String)
    (include_categories include_parts_of_speech : Option (List String))
    (word_min_length word_max_length : Option Int)
    (rx : Option (String → Bool))
    (return_less_if_necessary exclude_with_spaces : Bool) :
    Except WWError (List String) := do
  let choose_from ← filterModel eng starts_with ends_with include_categories
    include_parts_of_speech word_min_length word_max_length rx exclude_with_spaces
  if !return_less_if_necessary && decide (choose_from.length < amount) then
    .error (.noWords amount)
  else if return_less_if_necessary then
    .ok (shuffleModel picks choose_from)
  else
    .ok (sampleLoop picks 0 amount choose_from)

/-- The predicate that a word must satisfy to survive all of `filter`'s
constraints past the category/length stage; used to state the equivalence of
the trie-backed and trie-free pipelines. -/
def keepWord (starts_with ends_with : String) (rx : Option (String → Bool))
    (exclude_with_spaces : Bool) (w : String) : Bool :=
  (starts_with == "" || List.isPrefixOf starts_with.data w.data) &&
  (ends_with == "" || List.isSuffixOf ends_with.data w.data) &&
  (match rx with
   | some p => p w
   | none => true) &&
  !(exclude_with_spaces && w.data.contains ' ')

instance {ε α : Type} [DecidableEq ε] [DecidableEq α] : DecidableEq (Except ε α) := fun x y =>
  match x, y with
  | .ok a, .ok b => decidable_of_iff (a = b) (by simp)
  | .error a, .error b => decidable_of_iff (a = b) (by simp)
  | .ok _, .error _ => isFalse (by simp)
  | .error _, .ok _ => isFalse (by simp)

/-- In a list sorted by length, lengths are monotone in the index
(stated via `getD` to avoid dependent indexing). -/
theorem pairwise_length_getD {words : List String} (h : words.Pairwise lenLE)
    {i j : Nat} (hij : i ≤ j) (hj : j < words.length) :
    (words.getD i "").length ≤ (words.getD j "").length := by
  rcases Nat.lt_or_ge i j with hlt | hge
  · have hi : i < words.length := Nat.lt_trans hlt hj
    rw [List.getD_eq_getElem words "" hi, List.getD_eq_getElem words "" hj]
    have hp := (List.pairwise_iff_get.mp h) ⟨i, hi⟩ ⟨j, hj⟩ hlt
    simpa [lenLE] using hp
  · have heq : i = j := Nat.le_antisymm hij hge
    subst heq
    exact Nat.le_refl _

/-- Loop invariant of `_bisect_by_length`: given enough fuel, the loop refines
`[left, right]` until every index below the result has length below `target`
and every index at or above it has length at least `target`. -/
theorem bisectGo_spec (words : List String) (target : Int)
    (sorted : words.Pairwise lenLE) :
    ∀ (fuel : Nat) (left : Nat) (right : Int),
      (right + 1 - (left : Int)).toNat ≤ fuel →
      left ≤ words.length → right ≤ (words.length : Int) - 1 →
      (∀ i : Nat, i < left → ((words.getD i "").length : Int) < target) →
      (∀ i : Nat, right < (i : Int) → i < words.length →
        target ≤ ((words.getD i "").length : Int)) →
      bisectGo words target fuel left right ≤ words.length ∧
      (∀ i : Nat, i < bisectGo words target fuel left right →
        ((words.getD i "").length : Int) < target) ∧
      (∀ i : Nat, bisectGo words target fuel left right ≤ i → i < words.length →
        target ≤ ((words.getD i "").length : Int)) := by
  intro fuel
  induction fuel with
  | zero =>
    intro left right hm hl hr hlow hhigh
    simp only [bisectGo]
    exact ⟨hl, fun i hi => hlow i hi, fun i hli hin => hhigh i (by omega) hin⟩
  | succ fuel ih =>
    intro left right hm hl hr hlow hhigh
    by_cases hc : (left : Int) ≤ right
    · simp only [bisectGo, if_pos hc]
      set mid := left + ((right - (left : Int)).toNat / 2) with hmid
      have hml : left ≤ mid := by omega
      have hmr : (mid : Int) ≤ right := by omega
      have hmn : mid < words.length := by omega
      by_cases hlen : ((words.getD mid "").length : Int) < target
      · rw [if_pos hlen]
        apply ih (mid + 1) right (by omega) (by omega) hr
        · intro i hi
          have h1 : (words.getD i "").length ≤ (words.getD mid "").length :=
            pairwise_length_getD sorted (by omega) hmn
          omega
        · exact hhigh
      · rw [if_neg hlen]
        apply ih left ((mid : Int) - 1) (by omega) hl (by omega) hlow
        intro i hi hin
        rcases Nat.lt_or_ge i (mid + 1) with hcase | hcase
        · have h1 : (words.getD mid "").length ≤ (words.getD i "").length := by
            rcases Nat.lt_or_ge i mid with h | h
            · omega
            · exact pairwise_length_getD sorted h hin
          omega
        · rcases Int.lt_or_le right (i : Int) with h | h
          · exact hhigh i h hin
          · have h1 : (words.getD mid "").length ≤ (words.getD i "").length :=
              pairwise_length_getD sorted (by omega) hin
            omega
    · simp only [bisectGo, if_neg hc]
      exact ⟨hl, fun i hi => hlow i hi, fun i hli hin => hhigh i (by omega) hin⟩

/-- Characterisation of `_bisect_by_length` on a length-sorted list: its
result splits the indices into those with length below `target` and those
with length at least `target`. -/
theorem bisect_by_length_spec (words : List String) (target : Int)
    (sorted : words.Pairwise lenLE) :
    bisect_by_length words target ≤ words.length ∧
    (∀ i : Nat, i < bisect_by_length words target →
      ((words.getD i "").length : Int) < target) ∧
    (∀ i : Nat, bisect_by_length words target ≤ i → i < words.length →
      target ≤ ((words.getD i "").length : Int)) := by
  unfold bisect_by_length
  apply bisectGo_spec words target sorted words.length 0 ((words.length : Int) - 1)
    (by omega) (by omega) (by omega)
  · intro i hi
    omega
  · intro i hgt hlt
    exfalso
    omega

/-- A predicate that holds exactly on the index window `[L, R)` of a list
selects exactly the Python slice `l[L:R]`. -/
theorem filter_eq_take_drop {α : Type} (d : α) :
    ∀ (l : List α) (p : α → Bool) (L R : Nat),
      (∀ i : Nat, i < l.length → (p (l.getD i d) = true ↔ (L ≤ i ∧ i < R))) →
      l.filter p = (l.take R).drop L := by
  intro l
  induction l with
  | nil =>
    intro p L R _
    simp
  | cons a t ih =>
    intro p L R h
    have hshift : ∀ (Lt St : Nat),
        (∀ i : Nat, (i + 1 < (a :: t).length → (Lt ≤ i ∧ i < St ↔ L ≤ i + 1 ∧ i + 1 < R))) →
        t.filter p = (t.take St).drop Lt := by
      intro Lt St hiff
      apply ih
      intro i hi
      have hs := h (i + 1) (by simpa using Nat.succ_lt_succ hi)
      rw [List.getD_cons_succ] at hs
      rw [hs]
      exact (hiff i (by simpa using Nat.succ_lt_succ hi)).symm
    cases L with
    | zero =>
      cases R with
      | zero =>
        have ha : p a = false := by
          have h0 := h 0 (by simp)
          simpa using h0
        have ht : t.filter p = (t.take 0).drop 0 := hshift 0 0 (by intro i _; omega)
        simp [List.filter_cons, ha]
        simpa using ht
      | succ S =>
        have ha : p a = true := by
          have h0 := h 0 (by simp)
          simpa using h0
        have ht : t.filter p = (t.take S).drop 0 := hshift 0 S (by intro i _; omega)
        simp [List.filter_cons, ha]
        simpa using ht
    | succ K =>
      have ha : p a = false := by
        have h0 := h 0 (by simp)
        simpa using h0
      cases R with
      | zero =>
        have ht : t.filter p = (t.take 0).drop K := hshift K 0 (by intro i _; omega)
        simp [List.filter_cons, ha]
        simpa using ht
      | succ S =>
        have ht : t.filter p = (t.take S).drop K := hshift K S (by intro i _; omega)
        simp [List.filter_cons, ha]
        simpa using ht

/-- On a length-sorted list, `_get_words_of_length` returns exactly the words
whose length lies within the (possibly absent) bounds. -/
theorem get_words_of_length_spec (words : List String) (mn mx : Option Int)
    (sorted : words.Pairwise lenLE) :
    get_words_of_length words mn mx = words.filter (inBounds mn mx) := by
  cases mn with
  | none =>
    cases mx with
    | none =>
      have key : words.filter (inBounds none none) = (words.take words.length).drop 0 := by
        apply filter_eq_take_drop ""
        intro i hi
        simp [inBounds, hi]
      show words.drop 0 = _
      rw [key, List.take_length]
    | some M =>
      obtain ⟨hb1, hb2, hb3⟩ := bisect_by_length_spec words (M + 1) sorted
      have key : words.filter (inBounds none (some M))
          = (words.take (bisect_by_length words (M + 1))).drop 0 := by
        apply filter_eq_take_drop ""
        intro i hi
        simp only [inBounds, Bool.and_eq_true, decide_eq_true_eq, true_and]
        constructor
        · intro h2
          refine ⟨Nat.zero_le _, ?_⟩
          by_contra hc
          have := hb3 i (by omega) hi
          omega
        · rintro ⟨-, h2⟩
          have := hb2 i h2
          omega
      show (words.take (bisect_by_length words (M + 1))).drop 0 = _
      rw [key]
  | some m =>
    obtain ⟨ha1, ha2, ha3⟩ := bisect_by_length_spec words m sorted
    cases mx with
    | none =>
      have key : words.filter (inBounds (some m) none)
          = (words.take words.length).drop (bisect_by_length words m) := by
        apply filter_eq_take_drop ""
        intro i hi
        simp only [inBounds, Bool.and_eq_true, decide_eq_true_eq, and_true]
        constructor
        · intro h1
          refine ⟨?_, hi⟩
          by_contra hc
          have := ha2 i (by omega)
          omega
        · rintro ⟨h1, -⟩
          have := ha3 i h1 hi
          omega
      show words.drop (bisect_by_length words m) = _
      rw [key, List.take_length]
    | some M =>
      obtain ⟨hb1, hb2, hb3⟩ := bisect_by_length_spec words (M + 1) sorted
      have key : words.filter (inBounds (some m) (some M))
          = (words.take (bisect_by_length words (M + 1))).drop (bisect_by_length words m) := by
        apply filter_eq_take_drop ""
        intro i hi
        simp only [inBounds, Bool.and_eq_true, decide_eq_true_eq]
        constructor
        · rintro ⟨h1, h2⟩
          constructor
          · by_contra hc
            have := ha2 i (by omega)
            omega
          · by_contra hc
            have := hb3 i (by omega) hi
            omega
        · rintro ⟨h1, h2⟩
          have hx := ha3 i h1 hi
          have hy := hb2 i h2
          omega
      show (words.take (bisect_by_length words (M + 1))).drop (bisect_by_length words m) = _
      rw [key]

/-- C3: for every list of words sorted ascending by length and every pair of
length bounds, each possibly absent, the slice computed by
`_get_words_of_length` via the two binary searches returns exactly the words
whose length lies within the bounds (an absent bound being unbounded on that
side); this covers the empty list, a minimum exceeding every word length
(empty result) and equal bounds, none of which are special-cased. -/
theorem claim_C3_length_slice (words : List String) (mn mx : Option Int)
    (sorted : words.Pairwise lenLE) :
    get_words_of_length words mn mx = words.filter (inBounds mn mx) :=
  get_words_of_length_spec words mn mx sorted

/-- Witness for C3 at the spec's own example: lengths `[1,2,2,3,5]`, the slice
`[2,3]` returns exactly the words of length 2 or 3, `slice(6, none)` is empty
and `slice(none, none)` is everything. -/
theorem claim_C3_length_slice_witness :
    (["a", "bb", "cc", "ddd", "eeeee"].Pairwise lenLE) ∧
    get_words_of_length ["a", "bb", "cc", "ddd", "eeeee"] (some 2) (some 3)
      = ["a", "bb", "cc", "ddd", "eeeee"].filter (inBounds (some 2) (some 3)) ∧
    get_words_of_length ["a", "bb", "cc", "ddd", "eeeee"] (some 6) none
      = ["a", "bb", "cc", "ddd", "eeeee"].filter (inBounds (some 6) none) ∧
    get_words_of_length ["a", "bb", "cc", "ddd", "eeeee"] none none
      = ["a", "bb", "cc", "ddd", "eeeee"].filter (inBounds none none) :=
  ⟨by decide,
   claim_C3_length_slice _ (some 2) (some 3) (by decide),
   claim_C3_length_slice _ (some 6) none (by decide),
   claim_C3_length_slice _ none none (by decide)⟩

/-- C7: whenever both length bounds are supplied, the minimum exceeds the
maximum, and the maximum is not the sentinel 0, `filter` fails with the
invalid-length-bounds error (it does not silently adjust the bounds). -/
theorem claim_C7_invalid_bounds (eng : RandomWordEngine) (sw ew : String)
    (ic ip : Option (List String)) (m M : Int) (rx : Option (String → Bool)) (ex : Bool)
    (hgt : m > M) (hM : M ≠ 0) :
    filterModel eng sw ew ic ip (some m) (some M) rx ex = .error .invalidLength := by
  simp [filterModel, validate_lengths, hgt, hM, Bind.bind, Except.bind]

/-- Witness for C7: min 5, max 3 on a concrete engine. -/
theorem claim_C7_invalid_bounds_witness :
    ((5 : Int) > 3 ∧ (3 : Int) ≠ 0) ∧
    filterModel (mkEngine false [("noun", ["apple"])]) "" "" none none
      (some 5) (some 3) none false = .error .invalidLength :=
  ⟨by decide,
   claim_C7_invalid_bounds (mkEngine false [("noun", ["apple"])]) "" "" none none
     5 3 none false (by decide) (by decide)⟩

/-- C10: an empty `include_categories` list is falsy in Python, so `filter`
treats it exactly like an absent argument: the whole call coincides with the
`include_categories = None` call, falling back to `include_parts_of_speech`
when that is non-empty and otherwise to all configured category names. -/
theorem claim_C10_empty_categories (eng : RandomWordEngine) (sw ew : String)
    (ip : Option (List String)) (mn mx : Option Int) (rx : Option (String → Bool)) (ex : Bool) :
    filterModel eng sw ew (some []) ip mn mx rx ex = filterModel eng sw ew none ip mn mx rx ex ∧
    (∀ keys : List String, resolveCategories (some []) none keys = keys) ∧
    (∀ (keys l : List String),
      resolveCategories (some []) (some l) keys = if l.isEmpty then keys else l) :=
  ⟨rfl, fun _ => rfl, fun _ _ => rfl⟩

/-- C4 fails as stated: a negative maximum is *not* always normalised to
"unbounded with no error", because `_validate_lengths` performs the
min > max comparison before the negativity normalisation.  Concretely,
`word_min_length = 5, word_max_length = -1` raises the invalid-bounds error,
whereas the bound-absent call succeeds. -/
theorem claim_C4_counterexample :
    filterModel (mkEngine false [("noun", ["apple"])]) "" "" none none
      (some 5) (some (-1)) none false = .error .invalidLength ∧
    filterModel (mkEngine false [("noun", ["apple"])]) "" "" none none
      (some 5) none none false = .ok ["apple"] :=
  ⟨rfl, rfl⟩

/-- `dropNeg` is idempotent. -/
theorem dropNeg_dropNeg (b : Option Int) : dropNeg (dropNeg b) = dropNeg b := by
  cases b with
  | none => rfl
  | some v =>
    by_cases hv : v < 0 <;> simp [dropNeg, hv]

/-- When the supplied pair does not trigger the min > max check,
`_validate_lengths` succeeds and just drops the negative bounds. -/
theorem validate_lengths_ok (mn mx : Option Int)
    (h : ∀ m M : Int, mn = some m → mx = some M → m ≤ M ∨ M = 0) :
    validate_lengths mn mx = .ok (dropNeg mn, dropNeg mx) := by
  cases mn with
  | none => cases mx <;> simp [validate_lengths]
  | some m =>
    cases mx with
    | none => simp [validate_lengths]
    | some M =>
      rcases h m M rfl rfl with hle | h0
      · have hnot : ¬(m > M) := by omega
        simp [validate_lengths, hnot]
      · simp [validate_lengths, h0]

/-- C4, amended: a supplied negative bound is normalised to "unbounded" and
the call proceeds as if that bound were absent, *provided* the pair does not
trip the min > max validation — that check runs before the normalisation and
also fires when the maximum is negative (a negative maximum is never the
sentinel 0). -/
theorem claim_C4_amended (eng : RandomWordEngine) (sw ew : String)
    (ic ip : Option (List String)) (mn mx : Option Int)
    (rx : Option (String → Bool)) (ex : Bool)
    (h : ∀ m M : Int, mn = some m → mx = some M → m ≤ M ∨ M = 0) :
    filterModel eng sw ew ic ip mn mx rx ex
      = filterModel eng sw ew ic ip (dropNeg mn) (dropNeg mx) rx ex := by
  have h2 : ∀ m M : Int, dropNeg mn = some m → dropNeg mx = some M → m ≤ M ∨ M = 0 := by
    intro m M hm hM
    cases mn with
    | none => simp [dropNeg] at hm
    | some m0 =>
      cases mx with
      | none => simp [dropNeg] at hM
      | some M0 =>
        by_cases hm0 : m0 < 0 <;> simp [dropNeg, hm0] at hm
        by_cases hM0 : M0 < 0 <;> simp [dropNeg, hM0] at hM
        subst hm
        subst hM
        exact h _ _ rfl rfl
  have key : validate_lengths mn mx = validate_lengths (dropNeg mn) (dropNeg mx) := by
    rw [validate_lengths_ok mn mx h, validate_lengths_ok (dropNeg mn) (dropNeg mx) h2,
      dropNeg_dropNeg, dropNeg_dropNeg]
  simp only [filterModel]
  rw [key]

/-- Witness for C4 amended: min -5, max -2 (min ≤ max, so no error): the call
behaves as if both bounds were absent. -/
theorem claim_C4_amended_witness :
    (∀ m M : Int, (some (-5) : Option Int) = some m → (some (-2) : Option Int) = some M →
      m ≤ M ∨ M = 0) ∧
    filterModel (mkEngine false [("noun", ["apple"])]) "" "" none none
        (some (-5)) (some (-2)) none false
      = filterModel (mkEngine false [("noun", ["apple"])]) "" "" none none
        (dropNeg (some (-5))) (dropNeg (some (-2))) none false := by
  have h : ∀ m M : Int, (some (-5) : Option Int) = some m → (some (-2) : Option Int) = some M →
      m ≤ M ∨ M = 0 := by
    intro m M hm hM
    cases hm
    cases hM
    left
    decide
  exact ⟨h, claim_C4_amended (mkEngine false [("noun", ["apple"])]) "" "" none none
    (some (-5)) (some (-2)) none false h⟩

/-- The category loop raises on the first unknown name. -/
theorem gather_unknown (cats : List (String × List String)) (mn mx : Option Int) :
    ∀ (pre : List String) (n : String) (post acc : List String),
      (∀ m ∈ pre, (lookupCat cats m).isSome) → lookupCat cats n = none →
      gatherWords cats mn mx (pre ++ n :: post) acc = .error (.unknownCategory n) := by
  intro pre
  induction pre with
  | nil =>
    intro n post acc _ hn
    simp [gatherWords, hn]
  | cons a t ih =>
    intro n post acc hpre hn
    have ha : (lookupCat cats a).isSome := hpre a (by simp)
    obtain ⟨ws, hws⟩ := Option.isSome_iff_exists.mp ha
    simp only [List.cons_append, gatherWords, hws]
    exact ih n post _ (fun m hm => hpre m (by simp [hm])) hn

/-- C6: a `filter` call whose requested category list contains a name that is
not among the engine's configured categories fails with the unknown-category
error carrying that name (the first such name in request order), provided the
length bounds pass validation first. -/
theorem claim_C6_unknown_category (eng : RandomWordEngine) (sw ew : String)
    (ip : Option (List String)) (mn mx : Option Int) (v : Option Int × Option Int)
    (rx : Option (String → Bool)) (ex : Bool) (pre post : List String) (n : String)
    (hv : validate_lengths mn mx = .ok v)
    (hpre : ∀ m ∈ pre, (lookupCat eng.categories m).isSome)
    (hn : lookupCat eng.categories n = none) :
    filterModel eng sw ew (some (pre ++ n :: post)) ip mn mx rx ex
      = .error (.unknownCategory n) := by
  obtain ⟨mn', mx'⟩ := v
  have hres : resolveCategories (some (pre ++ n :: post)) ip (eng.categories.map Prod.fst)
      = pre ++ n :: post := by
    have : (pre ++ n :: post).isEmpty = false := by
      cases pre <;> rfl
    simp [resolveCategories, this]
  simp [filterModel, hv, Bind.bind, Except.bind, hres,
    gather_unknown eng.categories mn' mx' pre n post [] hpre hn]

/-- Witness for C6, at the spec's own example: requesting the unconfigured
category `verb` fails naming `verb`. -/
theorem claim_C6_unknown_category_witness :
    (validate_lengths none none = .ok (none, none) ∧
      (∀ m ∈ ([] : List String),
        (lookupCat (mkEngine false [("noun", ["apple", "ant", "orange"]),
          ("adjective", ["angry", "red"])]).categories m).isSome) ∧
      lookupCat (mkEngine false [("noun", ["apple", "ant", "orange"]),
        ("adjective", ["angry", "red"])]).categories "verb" = none) ∧
    filterModel (mkEngine false [("noun", ["apple", "ant", "orange"]),
        ("adjective", ["angry", "red"])]) "" "" (some ["verb"]) none none none none false
      = .error (.unknownCategory "verb") :=
  ⟨⟨rfl, by simp, rfl⟩,
   claim_C6_unknown_category _ "" "" none none none (none, none) none false [] [] "verb"
     rfl (by simp) rfl⟩

/-- C5's condition is right: when shortfall is disallowed and the filtered
pool is smaller than the requested amount, `random_words` fails with the
insufficient-pool error; but the error carries only the requested amount. -/
theorem claim_C5_amended (eng : RandomWordEngine) (picks : Nat → Nat) (amount : Nat)
    (sw ew : String) (ic ip : Option (List String)) (mn mx : Option Int)
    (rx : Option (String → Bool)) (ex : Bool) (pool : List String)
    (hf : filterModel eng sw ew ic ip mn mx rx ex = .ok pool)
    (hlt : pool.length < amount) :
    random_words eng picks amount sw ew ic ip mn mx rx false ex
      = .error (.noWords amount) := by
  simp [random_words, hf, Bind.bind, Except.bind, hlt]

/-- C5 as stated is false: the insufficient-pool error does not identify the
available count.  Requesting 5 from a pool of 2 and requesting 5 from a pool
of 1 produce the *same* error value `NoWordsToChoseFrom(amount = 5)` (the
Python message interpolates only the amount), so the error cannot identify
the available count. -/
theorem claim_C5_counterexample :
    random_words (mkEngine false [("noun", ["apple", "ant"])]) (fun _ => 0) 5
      "" "" none none none none none false false = .error (.noWords 5) ∧
    random_words (mkEngine false [("noun", ["ark"])]) (fun _ => 0) 5
      "" "" none none none none none false false = .error (.noWords 5) ∧
    random_words (mkEngine false [("noun", ["apple", "ant"])]) (fun _ => 0) 5
        "" "" none none none none none false false
      = random_words (mkEngine false [("noun", ["ark"])]) (fun _ => 0) 5
        "" "" none none none none none false false :=
  ⟨rfl, rfl, rfl⟩

/-- Witness for C5 amended, at the spec's example sizes: requesting 5 from a
filtered pool of 2 with shortfall disallowed fails with the error naming 5. -/
theorem claim_C5_amended_witness :
    (filterModel (mkEngine false [("noun", ["apple", "ant"])]) "" "" none none
        none none none false = .ok ["ant", "apple"] ∧
      (["ant", "apple"] : List String).length < 5) ∧
    random_words (mkEngine false [("noun", ["apple", "ant"])]) (fun _ => 0) 5
      "" "" none none none none none false false = .error (.noWords 5) :=
  ⟨⟨rfl, by decide⟩,
   claim_C5_amended (mkEngine false [("noun", ["apple", "ant"])]) (fun _ => 0) 5
     "" "" none none none none none false ["ant", "apple"] rfl (by decide)⟩

/-- A non-empty string has positive length. -/
theorem length_pos_of_ne_empty (w : String) (h : w ≠ "") : 0 < w.length := by
  cases w with
  | mk data =>
    cases data with
    | nil => exact absurd rfl h
    | cons c cs => simp [String.length]

/-- Looking a name up in the sorted category map of `_custom_categories` is
looking it up in the input map and sorting the result. -/
theorem lookupCat_custom (cats : List (String × List String)) (n : String) :
    lookupCat (custom_categories cats) n
      = (lookupCat cats n).map (List.insertionSort lenLE) := by
  induction cats with
  | nil => rfl
  | cons pr t ih =>
    by_cases hp : pr.1 == n
    · simp [custom_categories, lookupCat, List.find?, hp]
    · simp [custom_categories, lookupCat, List.find?, hp]
      simpa [custom_categories, lookupCat] using ih

/-- A successful category lookup comes from a binding of the map. -/
theorem lookupCat_mem (cats : List (String × List String)) (n : String) (ws : List String)
    (h : lookupCat cats n = some ws) : ∃ pr ∈ cats, pr.2 = ws := by
  unfold lookupCat at h
  cases hf : cats.find? (fun p => p.1 == n) with
  | none => rw [hf] at h; exact absurd h (by simp)
  | some pr =>
    rw [hf] at h
    refine ⟨pr, List.mem_of_find?_eq_some hf, ?_⟩
    simpa using h

/-- With `max_length = 0` the slice of a length-sorted category of non-empty
words is empty: `bisect(0 + 1)` is index 0, so the Python slice is
`word_list[left:0] = []`. -/
theorem slice_empty_of_nonempty_words (ws : List String) (mn : Option Int)
    (sorted : ws.Pairwise lenLE) (hne : ∀ w ∈ ws, w ≠ "") :
    get_words_of_length ws mn (some 0) = [] := by
  rw [get_words_of_length_spec ws mn (some 0) sorted]
  rw [List.filter_eq_nil_iff]
  intro w hw
  have := length_pos_of_ne_empty w (hne w hw)
  simp [inBounds]
  intro
  omega

/-- If every successful lookup yields an empty slice, the category loop
leaves the accumulator unchanged (or raises on an unknown name). -/
theorem gather_empty_slices (cats : List (String × List String)) (mn mx : Option Int)
    (hslice : ∀ n ws, lookupCat cats n = some ws → get_words_of_length ws mn mx = []) :
    ∀ (names acc : List String),
      gatherWords cats mn mx names acc = .ok acc ∨
      ∃ n, gatherWords cats mn mx names acc = .error (.unknownCategory n) := by
  intro names
  induction names with
  | nil =>
    intro acc
    left
    rfl
  | cons a t ih =>
    intro acc
    cases hla : lookupCat cats a with
    | none =>
      right
      exact ⟨a, by simp [gatherWords, hla]⟩
    | some ws =>
      have hemp : setUpdate acc (get_words_of_length ws mn mx) = acc := by
        rw [hslice a ws hla]
        rfl
      simp only [gatherWords, hla, hemp]
      exact ih acc

/-- The trie intersections of an empty candidate set are empty. -/
theorem applyTries_nil (t : Option (List String × List String)) (sw ew : String) :
    applyTries t sw ew [] = [] := by
  cases t with
  | none => rfl
  | some pr =>
    obtain ⟨t0, t1⟩ := pr
    by_cases hsw : sw == "" <;> by_cases hew : ew == "" <;>
      simp [applyTries, setInter, hsw, hew]

/-- The long-operations pass over an empty candidate set is empty. -/
theorem applyLongOps_nil (ops : LongOps) : applyLongOps ops [] = [] := by
  by_cases h : opsPresent ops <;> simp [applyLongOps, h, setDiff]

/-- C2 fails as stated: `word_max_length = 0` is *not* treated as unbounded by
the slicing code.  On an engine holding just "apple", the `max = 0` call
returns the empty list while the `max = None` call returns "apple" — so the
two result sets differ. -/
theorem claim_C2_counterexample :
    filterModel (mkEngine false [("noun", ["apple"])]) "" "" none none
      none (some 0) none false = .ok [] ∧
    filterModel (mkEngine false [("noun", ["apple"])]) "" "" none none
      none none none false = .ok ["apple"] ∧
    ([] : List String) ≠ ["apple"] :=
  ⟨rfl, rfl, by decide⟩

/-- C2, amended: `word_max_length = 0` only bypasses the min > max validation
(so no invalid-bounds error is ever raised, whatever the minimum); the bound
itself is applied literally, so as long as every configured word is non-empty
the call returns the empty word set whenever it succeeds. -/
theorem claim_C2_amended (cats : List (String × List String)) (enhanced : Bool)
    (sw ew : String) (ic ip : Option (List String)) (mn : Option Int)
    (rx : Option (String → Bool)) (ex : Bool)
    (hne : ∀ pr ∈ cats, ∀ w ∈ pr.2, w ≠ "") :
    filterModel (mkEngine enhanced cats) sw ew ic ip mn (some 0) rx ex
        ≠ .error .invalidLength ∧
    ∀ l, filterModel (mkEngine enhanced cats) sw ew ic ip mn (some 0) rx ex = .ok l →
      l = [] := by
  have hv : validate_lengths mn (some 0) = .ok (dropNeg mn, some 0) := by
    have h0 : ∀ m M : Int, mn = some m → (some 0 : Option Int) = some M → m ≤ M ∨ M = 0 := by
      intro m M _ hM
      right
      injection hM with hM
      omega
    simpa [dropNeg] using validate_lengths_ok mn (some 0) h0
  have hslice : ∀ n ws, lookupCat (mkEngine enhanced cats).categories n = some ws →
      get_words_of_length ws (dropNeg mn) (some 0) = [] := by
    intro n ws h
    have h' : lookupCat (custom_categories cats) n = some ws := h
    rw [lookupCat_custom] at h'
    cases horig : lookupCat cats n with
    | none =>
      rw [horig] at h'
      exact absurd h' (by simp)
    | some orig =>
      rw [horig] at h'
      have hws : List.insertionSort lenLE orig = ws := by simpa using h'
      obtain ⟨pr, hpr, hpr2⟩ := lookupCat_mem cats n orig horig
      apply slice_empty_of_nonempty_words
      · rw [← hws]
        exact List.sorted_insertionSort lenLE orig
      · intro w hw
        apply hne pr hpr
        rw [hpr2]
        have hperm := List.perm_insertionSort lenLE orig
        rw [← hws] at hw
        exact hperm.mem_iff.mp hw
  rcases gather_empty_slices (mkEngine enhanced cats).categories (dropNeg mn) (some 0) hslice
      (resolveCategories ic ip ((mkEngine enhanced cats).categories.map Prod.fst)) []
    with hok | ⟨n, herr⟩
  · constructor
    · simp [filterModel, hv, Bind.bind, Except.bind, Pure.pure, Except.pure, hok,
        applyTries_nil, applyLongOps_nil]
    · intro l hl
      simp [filterModel, hv, Bind.bind, Except.bind, Pure.pure, Except.pure, hok,
        applyTries_nil, applyLongOps_nil] at hl
      exact hl
  · constructor
    · simp [filterModel, hv, Bind.bind, Except.bind, herr]
    · intro l hl
      simp [filterModel, hv, Bind.bind, Except.bind, herr] at hl

/-- Witness for C2 amended: on the one-word engine, a `max = 0` call with a
larger minimum raises no invalid-bounds error and returns the empty set. -/
theorem claim_C2_amended_witness :
    (∀ pr ∈ [("noun", ["apple"])], ∀ w ∈ pr.2, w ≠ "") ∧
    (filterModel (mkEngine false [("noun", ["apple"])]) "" "" none none
        (some 5) (some 0) none false ≠ .error .invalidLength ∧
      ∀ l, filterModel (mkEngine false [("noun", ["apple"])]) "" "" none none
        (some 5) (some 0) none false = .ok l → l = []) :=
  ⟨by decide,
   claim_C2_amended [("noun", ["apple"])] false "" "" none none (some 5) none false
     (by decide)⟩

/-- An in-range `getD` is a member of the list. -/
theorem getD_mem {l : List String} {i : Nat} (h : i < l.length) (d : String) :
    l.getD i d ∈ l := by
  rw [List.getD_eq_getElem l d h]
  exact List.getElem_mem h

/-- Membership in a Python `set.update`. -/
theorem mem_setUpdate : ∀ (xs acc : List String) (w : String),
    w ∈ setUpdate acc xs ↔ w ∈ acc ∨ w ∈ xs := by
  intro xs
  induction xs with
  | nil =>
    intro acc w
    simp [setUpdate]
  | cons a t ih =>
    intro acc w
    show w ∈ setUpdate (if a ∈ acc then acc else acc ++ [a]) t ↔ _
    rw [ih]
    by_cases ha : a ∈ acc
    · simp only [if_pos ha, List.mem_cons]
      constructor
      · rintro (h | h)
        · exact Or.inl h
        · exact Or.inr (Or.inr h)
      · rintro (h | h | h)
        · exact Or.inl h
        · exact Or.inl (h ▸ ha)
        · exact Or.inr h
    · simp only [if_neg ha, List.mem_append, List.mem_singleton, List.mem_cons]
      tauto
  
/-- `set.update` preserves duplicate-freeness. -/
theorem setUpdate_nodup : ∀ (xs acc : List String), acc.Nodup → (setUpdate acc xs).Nodup := by
  intro xs
  induction xs with
  | nil =>
    intro acc h
    exact h
  | cons a t ih =>
    intro acc h
    show (setUpdate (if a ∈ acc then acc else acc ++ [a]) t).Nodup
    apply ih
    by_cases ha : a ∈ acc
    · simpa [ha] using h
    · simp [ha, List.nodup_append, h]

/-- A successful category loop starting from a duplicate-free accumulator
produces a duplicate-free candidate set. -/
theorem gather_nodup (cats : List (String × List String)) (mn mx : Option Int) :
    ∀ (names acc : List String) (l : List String), acc.Nodup →
      gatherWords cats mn mx names acc = .ok l → l.Nodup := by
  intro names
  induction names with
  | nil =>
    intro acc l h hg
    injection hg with hg
    exact hg ▸ h
  | cons a t ih =>
    intro acc l h hg
    cases hla : lookupCat cats a with
    | none => simp [gatherWords, hla] at hg
    | some ws =>
      simp only [gatherWords, hla] at hg
      exact ih _ l (setUpdate_nodup _ _ h) hg

/-- The trie stage preserves duplicate-freeness. -/
theorem applyTries_nodup (t : Option (List String × List String)) (sw ew : String)
    (words : List String) (h : words.Nodup) : (applyTries t sw ew words).Nodup := by
  cases t with
  | none => exact h
  | some pr =>
    obtain ⟨t0, t1⟩ := pr
    by_cases hsw : sw == "" <;> by_cases hew : ew == "" <;>
      simp only [applyTries, hsw, hew, if_pos, if_neg, setInter, Bool.false_eq_true,
        if_false, if_true] <;>
      first
        | exact h
        | exact h.filter _
        | exact (h.filter _).filter _

/-- The long-operations stage preserves duplicate-freeness. -/
theorem applyLongOps_nodup (ops : LongOps) (words : List String) (h : words.Nodup) :
    (applyLongOps ops words).Nodup := by
  by_cases hp : opsPresent ops
  · simpa [applyLongOps, hp, setDiff] using h.filter _
  · simpa [applyLongOps, hp] using h

/-- The list returned by a successful `filter` call has no duplicates
(Python returns `list(words)` of a set). -/
theorem filterModel_ok_nodup (eng : RandomWordEngine) (sw ew : String)
    (ic ip : Option (List String)) (mn mx : Option Int)
    (rx : Option (String → Bool)) (ex : Bool) (pool : List String)
    (hf : filterModel eng sw ew ic ip mn mx rx ex = .ok pool) : pool.Nodup := by
  cases hv : validate_lengths mn mx with
  | error e => simp [filterModel, hv, Bind.bind, Except.bind] at hf
  | ok v =>
    obtain ⟨mn', mx'⟩ := v
    cases hg : gatherWords eng.categories mn' mx'
        (resolveCategories ic ip (eng.categories.map Prod.fst)) [] with
    | error e => simp [filterModel, hv, hg, Bind.bind, Except.bind] at hf
    | ok words0 =>
      simp [filterModel, hv, hg, Bind.bind, Except.bind, Pure.pure, Except.pure] at hf
      rw [← hf]
      exact applyLongOps_nodup _ _ (applyTries_nodup _ _ _ _
        (gather_nodup eng.categories mn' mx' _ [] words0 (by simp) hg))

/-- Every word drawn by the sampling loop comes from the pool. -/
theorem sampleLoop_subset (picks : Nat → Nat) :
    ∀ (n step : Nat) (pool : List String), n ≤ pool.length →
      ∀ w ∈ sampleLoop picks step n pool, w ∈ pool := by
  intro n
  induction n with
  | zero =>
    intro step pool _ w hw
    simp [sampleLoop] at hw
  | succ n ih =>
    intro step pool hn w hw
    have hpos : 0 < pool.length := by omega
    have hidx : picks step % pool.length < pool.length := Nat.mod_lt _ hpos
    have hw0 : pool.getD (picks step % pool.length) "" ∈ pool := getD_mem hidx ""
    simp only [sampleLoop, List.mem_cons] at hw
    rcases hw with rfl | hw
    · exact hw0
    · have hlen : (pool.erase (pool.getD (picks step % pool.length) "")).length
          = pool.length - 1 := List.length_erase_of_mem hw0
      exact List.mem_of_mem_erase (ih (step + 1) _ (by omega) w hw)

/-- On a duplicate-free pool the sampling loop never repeats a word. -/
theorem sampleLoop_nodup (picks : Nat → Nat) :
    ∀ (n step : Nat) (pool : List String), pool.Nodup → n ≤ pool.length →
      (sampleLoop picks step n pool).Nodup := by
  intro n
  induction n with
  | zero =>
    intro step pool _ _
    simp [sampleLoop]
  | succ n ih =>
    intro step pool hnd hn
    have hpos : 0 < pool.length := by omega
    have hidx : picks step % pool.length < pool.length := Nat.mod_lt _ hpos
    have hw0 : pool.getD (picks step % pool.length) "" ∈ pool := getD_mem hidx ""
    have hlen : (pool.erase (pool.getD (picks step % pool.length) "")).length
        = pool.length - 1 := List.length_erase_of_mem hw0
    rw [sampleLoop, List.nodup_cons]
    constructor
    · intro hmem
      exact hnd.not_mem_erase
        (sampleLoop_subset picks n (step + 1) _ (by omega) _ hmem)
    · exact ih (step + 1) _ (hnd.erase _) (by omega)

/-- Draining the whole pool through the sampling loop permutes it. -/
theorem sampleLoop_perm (picks : Nat → Nat) :
    ∀ (n step : Nat) (pool : List String), n = pool.length →
      List.Perm (sampleLoop picks step n pool) pool := by
  intro n
  induction n with
  | zero =>
    intro step pool h
    rw [sampleLoop]
    rw [eq_comm, List.length_eq_zero] at h
    rw [h]
  | succ n ih =>
    intro step pool hn
    have hpos : 0 < pool.length := by omega
    have hidx : picks step % pool.length < pool.length := Nat.mod_lt _ hpos
    have hw0 : pool.getD (picks step % pool.length) "" ∈ pool := getD_mem hidx ""
    have hlen : (pool.erase (pool.getD (picks step % pool.length) "")).length
        = pool.length - 1 := List.length_erase_of_mem hw0
    rw [sampleLoop]
    have htail := ih (step + 1) (pool.erase (pool.getD (picks step % pool.length) ""))
      (by omega)
    exact (htail.cons _).trans (List.perm_cons_erase hw0).symm

/-- C8: a successful `random_words` call with shortfall disallowed returns
pairwise-distinct words, every one a member of the filtered pool, and when
the requested amount equals the pool size the result is a permutation of the
whole pool. -/
theorem claim_C8_sampling (eng : RandomWordEngine) (picks : Nat → Nat) (amount : Nat)
    (sw ew : String) (ic ip : Option (List String)) (mn mx : Option Int)
    (rx : Option (String → Bool)) (ex : Bool) (pool out : List String)
    (hf : filterModel eng sw ew ic ip mn mx rx ex = .ok pool)
    (hr : random_words eng picks amount sw ew ic ip mn mx rx false ex = .ok out) :
    out.Nodup ∧ (∀ w ∈ out, w ∈ pool) ∧ (amount = pool.length → List.Perm out pool) := by
  by_cases hlt : pool.length < amount
  · exfalso
    simp [random_words, hf, Bind.bind, Except.bind, hlt] at hr
  · have hout : out = sampleLoop picks 0 amount pool := by
      simp [random_words, hf, Bind.bind, Except.bind, Pure.pure, Except.pure, hlt] at hr
      exact hr.symm
    have hnd := filterModel_ok_nodup eng sw ew ic ip mn mx rx ex pool hf
    have hle : amount ≤ pool.length := by omega
    subst hout
    exact ⟨sampleLoop_nodup picks amount 0 pool hnd hle,
      fun w hw => sampleLoop_subset picks amount 0 pool hle w hw,
      fun ha => sampleLoop_perm picks amount 0 pool ha⟩

/-- Witness for C8: sampling 2 from a filtered pool of the same 2 words. -/
theorem claim_C8_sampling_witness :
    (filterModel (mkEngine false [("noun", ["apple", "ant"])]) "" "" none none
        none none none false = .ok ["ant", "apple"] ∧
      random_words (mkEngine false [("noun", ["apple", "ant"])]) (fun _ => 0) 2
        "" "" none none none none none false false = .ok ["ant", "apple"]) ∧
    ((["ant", "apple"] : List String).Nodup ∧
      (∀ w ∈ (["ant", "apple"] : List String), w ∈ (["ant", "apple"] : List String)) ∧
      (2 = (["ant", "apple"] : List String).length →
        List.Perm (["ant", "apple"] : List String) ["ant", "apple"])) :=
  ⟨⟨rfl, rfl⟩,
   claim_C8_sampling (mkEngine false [("noun", ["apple", "ant"])]) (fun _ => 0) 2
     "" "" none none none none none false ["ant", "apple"] ["ant", "apple"] rfl rfl⟩

/-- C9: with `return_less_if_necessary = True`, `random_words` returns the
*entire* shuffled filtered pool whatever the requested amount — in
particular, even when the pool holds more words than were requested, all of
them are returned. -/
theorem claim_C9_return_less (eng : RandomWordEngine) (picks : Nat → Nat) (amount : Nat)
    (sw ew : String) (ic ip : Option (List String)) (mn mx : Option Int)
    (rx : Option (String → Bool)) (ex : Bool) (pool : List String)
    (hf : filterModel eng sw ew ic ip mn mx rx ex = .ok pool) :
    random_words eng picks amount sw ew ic ip mn mx rx true ex
      = .ok (shuffleModel picks pool) ∧
    List.Perm (shuffleModel picks pool) pool := by
  constructor
  · simp [random_words, hf, Bind.bind, Except.bind, Pure.pure, Except.pure, shuffleModel]
  · exact sampleLoop_perm picks pool.length 0 pool rfl

/-- Witness for C9: requesting 1 word with shortfall allowed from a pool of 2
returns both words (a permutation of the whole pool), not just 1. -/
theorem claim_C9_return_less_witness :
    (filterModel (mkEngine false [("noun", ["apple", "ant"])]) "" "" none none
        none none none false = .ok ["ant", "apple"]) ∧
    (random_words (mkEngine false [("noun", ["apple", "ant"])]) (fun _ => 0) 1
        "" "" none none none none none true false
      = .ok (shuffleModel (fun _ => 0) ["ant", "apple"]) ∧
      List.Perm (shuffleModel (fun _ => 0) ["ant", "apple"]) ["ant", "apple"]) :=
  ⟨rfl,
   claim_C9_return_less (mkEngine false [("noun", ["apple", "ant"])]) (fun _ => 0) 1
     "" "" none none none none none false ["ant", "apple"] rfl⟩

/-- String reversal is involutive. -/
theorem strRev_strRev (s : String) : strRev (strRev s) = s := by
  cases s
  simp [strRev]

/-- Membership in the reversed-trie lookup mapped back: for a word of the
trie's pool, it is equivalent to the plain `endswith` test.  (Key fact:
`isSuffixOf` is by definition `isPrefixOf` of the reversals.) -/
theorem mem_revTrie (allW : List String) (ew w : String) (hw : w ∈ allW) :
    w ∈ ((allW.map strRev).filter
        (fun v => List.isPrefixOf (strRev ew).data v.data)).map strRev
      ↔ List.isSuffixOf ew.data w.data = true := by
  constructor
  · intro h
    rcases List.mem_map.mp h with ⟨v, hv, hvw⟩
    rcases List.mem_filter.mp hv with ⟨_, hvp⟩
    have hveq : v = strRev w := by
      rw [← hvw, strRev_strRev]
    rw [hveq] at hvp
    simpa [List.isSuffixOf, strRev] using hvp
  · intro h
    refine List.mem_map.mpr ⟨strRev w,
      List.mem_filter.mpr ⟨List.mem_map_of_mem strRev hw, ?_⟩, strRev_strRev w⟩
    simpa [List.isSuffixOf, strRev] using h

/-- The long-operations stage is one combined filtering pass: a word survives
exactly when it fails none of the requested operations (when no operation is
requested the pass is skipped, and no word fails anything). -/
theorem applyLongOps_eq_filter (ops : LongOps) (S : List String) :
    applyLongOps ops S = S.filter (fun w => !failsOps ops w) := by
  by_cases hp : opsPresent ops
  · simp only [applyLongOps, if_pos hp, setDiff, perform_long_operations]
    apply List.filter_congr
    intro w hw
    by_cases hf : failsOps ops w <;> simp [List.mem_filter, hw, hf]
  · have hrx : ops.rx = none := by
      rcases h : ops.rx with _ | p
      · rfl
      · rw [opsPresent, h] at hp
        simp at hp
    have hsw : ops.sw = none := by
      rcases h : ops.sw with _ | v
      · rfl
      · rw [opsPresent, h] at hp
        simp at hp
    have hew : ops.ew = none := by
      rcases h : ops.ew with _ | v
      · rfl
      · rw [opsPresent, h] at hp
        simp at hp
    have hsp : ops.spaces = false := by
      rcases h : ops.spaces
      · rfl
      · rw [opsPresent, h] at hp
        simp at hp
    have hall : ∀ w, failsOps ops w = false := by
      intro w
      simp [failsOps, hrx, hsw, hew, hsp]
    simp [applyLongOps, hp, hall]

/-- The trie stage, on a candidate set drawn from the tries' pool, is exactly
the combined starts-with/ends-with filter. -/
theorem applyTries_some_eq_filter (allW : List String) (sw ew : String) (S : List String)
    (hS : ∀ w ∈ S, w ∈ allW) :
    applyTries (some (allW, allW.map strRev)) sw ew S
      = S.filter (fun w => (sw == "" || List.isPrefixOf sw.data w.data)
          && (ew == "" || List.isSuffixOf ew.data w.data)) := by
  have hstep1 : (if sw == "" then S
      else setInter S (get_words_that_start_with allW sw))
      = S.filter (fun w => sw == "" || List.isPrefixOf sw.data w.data) := by
    by_cases hsw : sw == ""
    · simp [hsw]
    · simp only [hsw, if_neg, Bool.false_eq_true, if_false, setInter,
        get_words_that_start_with]
      apply List.filter_congr
      intro w hw
      by_cases hpre : List.isPrefixOf sw.data w.data
      · simp [List.mem_filter, hS w hw, hpre, hsw]
      · simp [List.mem_filter, hpre, hsw]
  have hstep2 : ∀ (T : List String), (∀ w ∈ T, w ∈ allW) →
      (if ew == "" then T
        else setInter T ((get_words_that_start_with (allW.map strRev) (strRev ew)).map strRev))
      = T.filter (fun w => ew == "" || List.isSuffixOf ew.data w.data) := by
    intro T hT
    by_cases hew : ew == ""
    · simp [hew]
    · simp only [hew, if_neg, Bool.false_eq_true, if_false, setInter,
        get_words_that_start_with]
      apply List.filter_congr
      intro w hw
      by_cases hsuf : List.isSuffixOf ew.data w.data
      · simp [(mem_revTrie allW ew w (hT w hw)).mpr hsuf, hsuf, hew]
      · have : ¬ (w ∈ ((allW.map strRev).filter
            (fun v => List.isPrefixOf (strRev ew).data v.data)).map strRev) := by
          intro hc
          exact hsuf ((mem_revTrie allW ew w (hT w hw)).mp hc)
        simp [this, hsuf, hew]
  show (if ew == "" then (if sw == "" then S else setInter S (get_words_that_start_with allW sw))
      else setInter (if sw == "" then S else setInter S (get_words_that_start_with allW sw))
        ((get_words_that_start_with (allW.map strRev) (strRev ew)).map strRev))
    = _
  rw [hstep1, hstep2 (S.filter (fun w => sw == "" || List.isPrefixOf sw.data w.data))
    (fun w hw => hS w (List.mem_filter.mp hw).1), List.filter_filter]
  apply List.filter_congr
  intro w _
  rw [Bool.eq_iff_iff]
  simp only [Bool.and_eq_true]
  tauto

/-- A length slice only contains words of the sliced list. -/
theorem slice_subset (ws : List String) (mn mx : Option Int) :
    ∀ w ∈ get_words_of_length ws mn mx, w ∈ ws := by
  intro w hw
  unfold get_words_of_length at hw
  cases mx with
  | none => exact List.mem_of_mem_drop hw
  | some M => exact List.mem_of_mem_take (List.mem_of_mem_drop hw)

/-- The words of a configured category are among all the engine's words. -/
theorem lookup_subset_all (cats : List (String × List String)) (n : String)
    (ws : List String) (h : lookupCat cats n = some ws) :
    ∀ w ∈ ws, w ∈ allCategoryWords cats := by
  obtain ⟨pr, hpr, hpr2⟩ := lookupCat_mem cats n ws h
  intro w hw
  unfold allCategoryWords
  rw [List.mem_flatten]
  exact ⟨pr.2, List.mem_map_of_mem Prod.snd hpr, hpr2 ▸ hw⟩

/-- Every word of a successful category-loop result comes from the initial
accumulator or from some category of the engine. -/
theorem gather_subset (cats : List (String × List String)) (mn mx : Option Int) :
    ∀ (names acc l : List String),
      gatherWords cats mn mx names acc = .ok l →
      ∀ w ∈ l, w ∈ acc ∨ w ∈ allCategoryWords cats := by
  intro names
  induction names with
  | nil =>
    intro acc l hg w hw
    injection hg with hg
    subst hg
    exact Or.inl hw
  | cons a t ih =>
    intro acc l hg w hw
    cases hla : lookupCat cats a with
    | none => simp [gatherWords, hla] at hg
    | some ws =>
      simp only [gatherWords, hla] at hg
      rcases ih _ l hg w hw with hacc | hall
      · rcases (mem_setUpdate _ acc w).mp hacc with h | h
        · exact Or.inl h
        · exact Or.inr (lookup_subset_all cats a ws hla w (slice_subset ws mn mx w h))
      · exact Or.inr hall

/-- With the tries disabled, the trie stage is the identity and the deferred
starts-with/ends-with tests run inside the single long-operations pass; the
combined effect is the canonical `keepWord` filter. -/
theorem pipelineFalse (sw ew : String) (rx : Option (String → Bool)) (ex : Bool)
    (S : List String) :
    applyLongOps (mkLongOps false sw ew rx ex) (applyTries none sw ew S)
      = S.filter (keepWord sw ew rx ex) := by
  show applyLongOps (mkLongOps false sw ew rx ex) S = _
  rw [applyLongOps_eq_filter]
  apply List.filter_congr
  intro w _
  simp only [mkLongOps, failsOps, keepWord, Bool.if_true_left]
  rw [Bool.eq_iff_iff]
  by_cases hsw : sw == "" <;> by_cases hew : ew == "" <;> cases rx <;>
    simp [hsw, hew, Bool.not_or, Bool.and_eq_true, Bool.not_eq_true'] <;>
    tauto

/-- With the tries enabled, the trie intersections handle starts-with and
ends-with and the long-operations pass handles only the pattern and space
tests; on a candidate set drawn from the tries' pool the combined effect is
the same canonical `keepWord` filter. -/
theorem pipelineTrue (allW : List String) (sw ew : String) (rx : Option (String → Bool))
    (ex : Bool) (S : List String) (hS : ∀ w ∈ S, w ∈ allW) :
    applyLongOps (mkLongOps true sw ew rx ex)
        (applyTries (some (allW, allW.map strRev)) sw ew S)
      = S.filter (keepWord sw ew rx ex) := by
  rw [applyTries_some_eq_filter allW sw ew S hS, applyLongOps_eq_filter, List.filter_filter]
  apply List.filter_congr
  intro w _
  simp only [mkLongOps, failsOps, keepWord]
  rw [Bool.eq_iff_iff]
  by_cases hsw : sw == "" <;> by_cases hew : ew == "" <;> cases rx <;>
    simp [hsw, hew, Bool.not_or, Bool.and_eq_true, Bool.not_eq_true'] <;>
    tauto

/-- C1: for every filter specification (starts_with, ends_with, categories,
length bounds, pattern, exclude-spaces) over the same category word lists,
`filter` returns the same result whether the engine was built with
`enhanced_prefixes` enabled (trie-backed prefix/suffix narrowing) or disabled
(deferred linear starts-with/ends-with tests); only performance differs. -/
theorem claim_C1_trie_equivalence (cats : List (String × List String)) (sw ew : String)
    (ic ip : Option (List String)) (mn mx : Option Int)
    (rx : Option (String → Bool)) (ex : Bool) :
    filterModel (mkEngine true cats) sw ew ic ip mn mx rx ex
      = filterModel (mkEngine false cats) sw ew ic ip mn mx rx ex := by
  cases hv : validate_lengths mn mx with
  | error e => simp [filterModel, hv, Bind.bind, Except.bind]
  | ok v =>
    obtain ⟨mn', mx'⟩ := v
    cases hg : gatherWords (custom_categories cats) mn' mx'
        (resolveCategories ic ip ((custom_categories cats).map Prod.fst)) [] with
    | error e =>
      simp [filterModel, mkEngine, hv, hg, Bind.bind, Except.bind]
    | ok S =>
      have hS : ∀ w ∈ S, w ∈ allCategoryWords (custom_categories cats) := by
        intro w hw
        rcases gather_subset (custom_categories cats) mn' mx' _ [] S hg w hw with h | h
        · exact absurd h (by simp)
        · exact h
      simp only [filterModel, mkEngine, hv, hg, Bind.bind, Except.bind,
        Bool.false_eq_true, if_true, if_false, Option.isSome_some, Option.isSome_none]
      rw [pipelineTrue (allCategoryWords (custom_categories cats)) sw ew rx ex S hS,
        pipelineFalse sw ew rx ex S]
